import Mathlib

/-!
Verification development for the New-Financial-Assistant repository.

Part 1 models the retirement projection engine described in spec §3–§4
(the `RetirementCalc` component is not among the provided sources, so the
engine is modelled from the spec, with real numbers rendered as `ℚ`).

Part 2 embeds the shell code that is present in the sources:
`extractJson` / `analyzePortfolio` from `services/geminiService` and the
`handleFetchTrends` / `handleAnalyzePortfolio` / `handleAddSymbol`
handlers from `App.tsx`, together with a character-level model of the
platform `JSON.parse` used by `extractJson`.
-/

namespace FinApp

/-- Modelled from the spec: the `RetirementPlan` input record of spec §3.
The `RetirementCalc` component implementing the engine is missing from the
provided sources, so the data model follows the spec's words: integer ages,
monetary amounts and the percentage rate as exact rationals. -/
structure RetirementPlan where
  currentAge : ℕ
  retirementAge : ℕ
  currentSavings : ℚ
  monthlySavings : ℚ
  expectedAnnualReturn : ℚ
  targetMonthlyPension : ℚ
deriving DecidableEq

/-- Modelled from the spec: the `RetirementResult` output record of spec §3
(without the optional `yearlyBreakdown`). -/
structure RetirementResult where
  totalAccumulated : ℚ
  monthlyPensionPossible : ℚ
  isGoalReachable : Bool
deriving DecidableEq

/-- Modelled from the spec: the only error kind of the engine (spec §7). -/
inductive EngineError where
  | invalidInput
deriving DecidableEq

/-- Modelled from the spec: step 1 of spec §4.1 — the validation predicate.
`retirementAge < currentAge` is invalid, and so is any negative monetary
field (`currentSavings`, `monthlySavings`, `targetMonthlyPension`);
`expectedAnnualReturn` may be negative. -/
def invalidPlan (p : RetirementPlan) : Prop :=
  p.retirementAge < p.currentAge ∨ p.currentSavings < 0 ∨
    p.monthlySavings < 0 ∨ p.targetMonthlyPension < 0

instance (p : RetirementPlan) : Decidable (invalidPlan p) := by
  unfold invalidPlan; infer_instance

/-- Modelled from the spec: step 2 of spec §4.1,
`months = (retirementAge - currentAge) * 12`. -/
def monthsTo (p : RetirementPlan) : ℕ :=
  (p.retirementAge - p.currentAge) * 12

/-- Modelled from the spec: step 3 of spec §4.1,
`monthlyRate = expectedAnnualReturn / 100 / 12`. -/
def monthlyRate (p : RetirementPlan) : ℚ :=
  p.expectedAnnualReturn / 100 / 12

/-- Modelled from the spec: step 4 of spec §4.1, the month-by-month
compounding recurrence `balance = balance * (1 + monthlyRate) + monthlySavings`
iterated for the given number of months. -/
def accumulate (bal r m : ℚ) : ℕ → ℚ
  | 0 => bal
  | n + 1 => accumulate (bal * (1 + r) + m) r m n

/-- Modelled from the spec: the engine contract
`project(plan) -> RetirementResult` of spec §4.1, steps 1–6. -/
def project (p : RetirementPlan) : Except EngineError RetirementResult :=
  if invalidPlan p then
    .error .invalidInput
  else
    let total := accumulate p.currentSavings (monthlyRate p) p.monthlySavings (monthsTo p)
    let pension := total * (4 / 100) / 12
    .ok ⟨total, pension, decide (p.targetMonthlyPension ≤ pension)⟩

lemma accumulate_rate_zero (m : ℚ) : ∀ (n : ℕ) (bal : ℚ), accumulate bal 0 m n = bal + m * n := by
  intro n
  induction n with
  | zero => intro bal; simp [accumulate]
  | succ k ih =>
      intro bal
      rw [accumulate, ih]
      push_cast
      ring

lemma accumulate_closed (r m : ℚ) (hr : r ≠ 0) :
    ∀ (n : ℕ) (bal : ℚ),
      accumulate bal r m n = bal * (1 + r) ^ n + m * (((1 + r) ^ n - 1) / r) := by
  intro n
  induction n with
  | zero => intro bal; simp [accumulate]
  | succ k ih =>
      intro bal
      rw [accumulate, ih]
      field_simp
      ring

lemma accumulate_mono (r₁ r₂ m₁ m₂ : ℚ) (hr : r₁ ≤ r₂) (hr0 : 0 ≤ 1 + r₁)
    (hm : m₁ ≤ m₂) (hm0 : 0 ≤ m₁) :
    ∀ (n : ℕ) (b₁ b₂ : ℚ), b₁ ≤ b₂ → 0 ≤ b₁ →
      accumulate b₁ r₁ m₁ n ≤ accumulate b₂ r₂ m₂ n := by
  intro n
  induction n with
  | zero => intro b₁ b₂ hb _; simpa [accumulate] using hb
  | succ k ih =>
      intro b₁ b₂ hb hb0
      rw [accumulate, accumulate]
      refine ih _ _ ?_ ?_
      · have h1 : b₁ * (1 + r₁) ≤ b₂ * (1 + r₂) :=
          mul_le_mul hb (by linarith) hr0 (le_trans hb0 hb)
        linarith
      · have h1 : 0 ≤ b₁ * (1 + r₁) := mul_nonneg hb0 hr0
        linarith

lemma project_ok_elim {p : RetirementPlan} {res : RetirementResult}
    (h : project p = .ok res) :
    ¬ invalidPlan p ∧
      res.totalAccumulated =
        accumulate p.currentSavings (monthlyRate p) p.monthlySavings (monthsTo p) ∧
      res.monthlyPensionPossible = res.totalAccumulated * (4 / 100) / 12 := by
  unfold project at h
  split at h
  · exact absurd h (by simp)
  · next hval =>
      refine ⟨hval, ?_⟩
      simp only [Except.ok.injEq] at h
      subst h
      exact ⟨rfl, rfl⟩

lemma project_ok_of_valid {p : RetirementPlan} (h : ¬ invalidPlan p) :
    project p =
      .ok ⟨accumulate p.currentSavings (monthlyRate p) p.monthlySavings (monthsTo p),
        accumulate p.currentSavings (monthlyRate p) p.monthlySavings (monthsTo p) * (4 / 100) / 12,
        decide (p.targetMonthlyPension ≤
          accumulate p.currentSavings (monthlyRate p) p.monthlySavings (monthsTo p) * (4 / 100) / 12)⟩ := by
  unfold project
  split
  · next hc => exact absurd hc h
  · rfl

/-- C1: for every valid plan, `project` derives the sustainable pension by the
fixed 4%-per-year safe-withdrawal rule, `monthlyPensionPossible =
totalAccumulated * 0.04 / 12`; the rule is the constant `4 / 100` and does not
use the plan's `expectedAnnualReturn`. -/
theorem C1_pension_rule (p : RetirementPlan) (res : RetirementResult)
    (h : project p = .ok res) :
    res.monthlyPensionPossible = res.totalAccumulated * (4 / 100) / 12 :=
  (project_ok_elim h).2.2

/-- C1 witness: the pension rule evaluated on the concrete plan
(age 50, retire 50, savings 5000000, no monthly savings, 5% return). -/
theorem C1_pension_rule_witness :
    project ⟨50, 50, 5000000, 0, 5, 15000⟩ = .ok ⟨5000000, 50000 / 3, true⟩ ∧
      (50000 / 3 : ℚ) = 5000000 * (4 / 100) / 12 := by
  have h : project ⟨50, 50, 5000000, 0, 5, 15000⟩ = .ok ⟨5000000, 50000 / 3, true⟩ := by
    rw [project_ok_of_valid (by norm_num [invalidPlan])]
    norm_num [monthsTo, monthlyRate, accumulate]
  exact ⟨h, by simpa using C1_pension_rule _ _ h⟩

/-- C2: `project` fails with `InvalidInput` exactly when the retirement age
precedes the current age or one of the non-negative monetary fields is
negative; every other plan (zero or negative return, zero horizon, zero
savings included) yields a numeric result. -/
theorem C2_validation (p : RetirementPlan) :
    (project p = .error .invalidInput ↔
      (p.retirementAge < p.currentAge ∨ p.currentSavings < 0 ∨
        p.monthlySavings < 0 ∨ p.targetMonthlyPension < 0)) ∧
      (¬ (p.retirementAge < p.currentAge ∨ p.currentSavings < 0 ∨
          p.monthlySavings < 0 ∨ p.targetMonthlyPension < 0) →
        ∃ res, project p = .ok res) := by
  constructor
  · constructor
    · intro h
      by_contra hc
      rw [project_ok_of_valid hc] at h
      exact absurd h (by simp)
    · intro h
      unfold project
      split
      · rfl
      · next hval => exact absurd h hval
  · intro h
    exact ⟨_, project_ok_of_valid h⟩

/-- C2 witness: the invalid plan (40 → 35) is rejected and the degenerate
all-zero plan produces a numeric result. -/
theorem C2_validation_witness :
    project ⟨40, 35, 0, 0, 0, 0⟩ = .error .invalidInput ∧
      ∃ res, project ⟨30, 60, 0, 0, 0, 0⟩ = .ok res := by
  constructor
  · exact (C2_validation ⟨40, 35, 0, 0, 0, 0⟩).1.mpr (by norm_num)
  · exact (C2_validation ⟨30, 60, 0, 0, 0, 0⟩).2 (by norm_num)

/-- C3: for every valid plan whose monthly rate is non-zero, the iterated
month-by-month balance recurrence computed by `project` coincides exactly with
the closed-form future value
`currentSavings * (1+r)^months + monthlySavings * (((1+r)^months - 1) / r)`. -/
theorem C3_closed_form (p : RetirementPlan) (res : RetirementResult)
    (h : project p = .ok res) (hr : monthlyRate p ≠ 0) :
    res.totalAccumulated =
      p.currentSavings * (1 + monthlyRate p) ^ monthsTo p +
        p.monthlySavings * (((1 + monthlyRate p) ^ monthsTo p - 1) / monthlyRate p) := by
  rw [(project_ok_elim h).2.1]
  exact accumulate_closed _ _ hr _ _

/-- C3 witness: one year at 1200% annual return (monthly rate 1): iterating
`b ↦ 2b + 1` twelve times from 1 gives 8191 = 2^13 - 1, matching the closed
form. -/
theorem C3_closed_form_witness :
    project ⟨30, 31, 1, 1, 1200, 0⟩ = .ok ⟨8191, 8191 * (4 / 100) / 12, true⟩ ∧
      monthlyRate ⟨30, 31, 1, 1, 1200, 0⟩ ≠ 0 ∧
      (8191 : ℚ) =
        1 * (1 + monthlyRate ⟨30, 31, 1, 1, 1200, 0⟩) ^ monthsTo ⟨30, 31, 1, 1, 1200, 0⟩ +
          1 * (((1 + monthlyRate ⟨30, 31, 1, 1, 1200, 0⟩) ^ monthsTo ⟨30, 31, 1, 1, 1200, 0⟩ - 1) /
            monthlyRate ⟨30, 31, 1, 1, 1200, 0⟩) := by
  have h : project ⟨30, 31, 1, 1, 1200, 0⟩ = .ok ⟨8191, 8191 * (4 / 100) / 12, true⟩ := by
    rw [project_ok_of_valid (by norm_num [invalidPlan])]
    norm_num [monthsTo, monthlyRate, accumulate]
  have hr : monthlyRate ⟨30, 31, 1, 1, 1200, 0⟩ ≠ 0 := by norm_num [monthlyRate]
  refine ⟨h, hr, ?_⟩
  simpa using C3_closed_form _ _ h hr

/-- C4: a plan already at retirement age (`retirementAge = currentAge`,
hence zero months) accumulates exactly the current savings. -/
theorem C4_zero_horizon (p : RetirementPlan) (res : RetirementResult)
    (h : project p = .ok res) (hage : p.retirementAge = p.currentAge) :
    res.totalAccumulated = p.currentSavings := by
  rw [(project_ok_elim h).2.1]
  unfold monthsTo
  rw [hage]
  simp [accumulate]

/-- C4 witness: the spec's concrete scenario `currentAge=50, retirementAge=50,
currentSavings=5000000` returns exactly 5000000. -/
theorem C4_zero_horizon_witness :
    project ⟨50, 50, 5000000, 0, 5, 15000⟩ = .ok ⟨5000000, 50000 / 3, true⟩ ∧
      (5000000 : ℚ) = (⟨50, 50, 5000000, 0, 5, 15000⟩ : RetirementPlan).currentSavings := by
  have h : project ⟨50, 50, 5000000, 0, 5, 15000⟩ = .ok ⟨5000000, 50000 / 3, true⟩ := by
    rw [project_ok_of_valid (by norm_num [invalidPlan])]
    norm_num [monthsTo, monthlyRate, accumulate]
  exact ⟨h, C4_zero_horizon _ _ h rfl⟩

/-- C5: with a zero expected annual return, `project` uses the additive
behaviour: the accumulated total is exactly
`currentSavings + monthlySavings * months`. -/
theorem C5_zero_rate (p : RetirementPlan) (res : RetirementResult)
    (h : project p = .ok res) (hz : p.expectedAnnualReturn = 0) :
    res.totalAccumulated = p.currentSavings + p.monthlySavings * monthsTo p := by
  rw [(project_ok_elim h).2.1]
  have hr : monthlyRate p = 0 := by
    unfold monthlyRate
    rw [hz]
    norm_num
  rw [hr]
  exact accumulate_rate_zero _ _ _

/-- C5 witness: zero return for 30 years with monthly savings 1000 from
100000 gives exactly 100000 + 1000 * 360. -/
theorem C5_zero_rate_witness :
    project ⟨30, 60, 100000, 1000, 0, 20000⟩ = .ok ⟨460000, 4600 / 3, false⟩ ∧
      (460000 : ℚ) = 100000 + 1000 * monthsTo ⟨30, 60, 100000, 1000, 0, 20000⟩ := by
  have h : project ⟨30, 60, 100000, 1000, 0, 20000⟩ = .ok ⟨460000, 4600 / 3, false⟩ := by
    rw [project_ok_of_valid (by norm_num [invalidPlan])]
    have : accumulate 100000 (monthlyRate ⟨30, 60, 100000, 1000, 0, 20000⟩) 1000
        (monthsTo ⟨30, 60, 100000, 1000, 0, 20000⟩) = 460000 := by
      have hr : monthlyRate ⟨30, 60, 100000, 1000, 0, 20000⟩ = 0 := by
        norm_num [monthlyRate]
      rw [hr, accumulate_rate_zero]
      norm_num [monthsTo]
    rw [this]
    norm_num
  exact ⟨h, C5_zero_rate _ _ h rfl⟩

/-- C6 counterexample: two valid plans differing only in
`expectedAnnualReturn` (-3600% vs 0%) over a positive one-year horizon.
The monthly growth factor for the first plan is `1 - 3 = -2`, so twelve
months turn savings 1 into `(-2)^12 = 4096`, strictly more than the 1 kept
by the plan with the larger return: `project` is not monotone in
`expectedAnnualReturn` over unboundedly negative rates. -/
theorem C6_not_monotone_counterexample :
    project ⟨30, 31, 1, 0, -3600, 0⟩ = .ok ⟨4096, 1024 / 75, true⟩ ∧
      project ⟨30, 31, 1, 0, 0, 0⟩ = .ok ⟨1, 1 / 300, true⟩ ∧
      (-3600 : ℚ) < 0 ∧ (30 : ℕ) < 31 ∧ ¬ ((4096 : ℚ) ≤ 1) := by
  refine ⟨?_, ?_, by norm_num, by norm_num, by norm_num⟩
  · rw [project_ok_of_valid (by norm_num [invalidPlan])]
    have hr : monthlyRate ⟨30, 31, 1, 0, -3600, 0⟩ = -3 := by norm_num [monthlyRate]
    have hm : monthsTo ⟨30, 31, 1, 0, -3600, 0⟩ = 12 := by norm_num [monthsTo]
    rw [hr, hm]
    norm_num [accumulate]
  · rw [project_ok_of_valid (by norm_num [invalidPlan])]
    norm_num [monthsTo, monthlyRate, accumulate]

/-- C6 (amended): holding the ages and current savings fixed, increasing
`monthlySavings` or `expectedAnnualReturn` never decreases
`totalAccumulated`, provided the smaller expected annual return is at least
-1200 (so the monthly growth factor `1 + r` stays non-negative). -/
theorem C6_monotone_amended (p₁ p₂ : RetirementPlan) (res₁ res₂ : RetirementResult)
    (h₁ : project p₁ = .ok res₁) (h₂ : project p₂ = .ok res₂)
    (hAge : p₁.currentAge = p₂.currentAge) (hRet : p₁.retirementAge = p₂.retirementAge)
    (hCur : p₁.currentSavings = p₂.currentSavings)
    (hM : p₁.monthlySavings ≤ p₂.monthlySavings)
    (hE : p₁.expectedAnnualReturn ≤ p₂.expectedAnnualReturn)
    (hFloor : (-1200 : ℚ) ≤ p₁.expectedAnnualReturn) :
    res₁.totalAccumulated ≤ res₂.totalAccumulated := by
  obtain ⟨hval₁, htot₁, -⟩ := project_ok_elim h₁
  obtain ⟨hval₂, htot₂, -⟩ := project_ok_elim h₂
  unfold invalidPlan at hval₁
  push_neg at hval₁
  obtain ⟨-, hcs, hms, -⟩ := hval₁
  rw [htot₁, htot₂]
  have hmonths : monthsTo p₁ = monthsTo p₂ := by
    unfold monthsTo
    rw [hAge, hRet]
  have hrate : monthlyRate p₁ ≤ monthlyRate p₂ := by
    unfold monthlyRate
    rw [div_div, div_div]
    exact (div_le_div_iff_of_pos_right (by norm_num : (0:ℚ) < 100 * 12)).mpr hE
  have hfloor : (0 : ℚ) ≤ 1 + monthlyRate p₁ := by
    unfold monthlyRate
    rw [div_div]
    have h := (div_le_div_iff_of_pos_right (by norm_num : (0:ℚ) < 100 * 12)).mpr hFloor
    norm_num at h
    linarith
  rw [← hmonths, ← hCur]
  exact accumulate_mono _ _ _ _ hrate hfloor hM hms _ _ _ le_rfl hcs

/-- C6 amended witness: raising monthly savings from 0 to 1 over one year at
zero return raises the total from 1 to 13. -/
theorem C6_monotone_amended_witness :
    project ⟨30, 31, 1, 0, 0, 0⟩ = .ok ⟨1, 1 / 300, true⟩ ∧
      project ⟨30, 31, 1, 1, 0, 0⟩ = .ok ⟨13, 13 / 300, true⟩ ∧
      (1 : ℚ) ≤ 13 := by
  have h₁ : project ⟨30, 31, 1, 0, 0, 0⟩ = .ok ⟨1, 1 / 300, true⟩ := by
    rw [project_ok_of_valid (by norm_num [invalidPlan])]
    norm_num [monthsTo, monthlyRate, accumulate]
  have h₂ : project ⟨30, 31, 1, 1, 0, 0⟩ = .ok ⟨13, 13 / 300, true⟩ := by
    rw [project_ok_of_valid (by norm_num [invalidPlan])]
    norm_num [monthsTo, monthlyRate, accumulate]
  have hc : (1 : ℚ) ≤ 13 :=
    C6_monotone_amended _ _ _ _ h₁ h₂ rfl rfl rfl (by norm_num) le_rfl (by norm_num)
  exact ⟨h₁, h₂, hc⟩

/-! ## Part 2: the shell code present in the sources.

`extractJson` (services/geminiService, lines 31–49) applies the platform
`JSON.parse` to slices of the AI response selected by two lazy regexes.
`JSON.parse` itself is a platform function; it is modelled here by a
character-level pushdown machine for the JSON grammar, with JSON numbers
read as exact rationals. -/

/-- JSON values, the possible results of `JSON.parse`. -/
inductive Json where
  | null
  | bool (b : Bool)
  | num (q : ℚ)
  | str (s : String)
  | arr (elems : List Json)
  | obj (fields : List (String × Json))

/-- The `{` character (written via its code point). -/
def lbrace : Char := Char.ofNat 123

/-- The `}` character (written via its code point). -/
def rbrace : Char := Char.ofNat 125

/-- JSON insignificant whitespace. -/
def isWs (c : Char) : Bool :=
  c == ' ' || c == '\t' || c == '\n' || c == '\r'

def isHexDigit (c : Char) : Bool :=
  c.isDigit || ('a' ≤ c && c ≤ 'f') || ('A' ≤ c && c ≤ 'F')

def hexDigitVal (c : Char) : ℕ :=
  if c.isDigit then c.toNat - 48
  else if 'a' ≤ c && c ≤ 'f' then c.toNat - 87
  else c.toNat - 55

def hexVal (ds : List Char) : ℕ :=
  ds.foldl (fun a c => a * 16 + hexDigitVal c) 0

/-- Single-character escapes accepted after a backslash in a JSON string. -/
def unescChar (c : Char) : Option Char :=
  if c = '"' then some '"'
  else if c = '\\' then some '\\'
  else if c = '/' then some '/'
  else if c = 'n' then some '\n'
  else if c = 't' then some '\t'
  else if c = 'r' then some '\r'
  else if c = 'b' then some (Char.ofNat 8)
  else if c = 'f' then some (Char.ofNat 12)
  else none

/-- Lexer mode while inside a JSON string literal. -/
inductive StrMode where
  | plain
  | esc
  | hex (ds : List Char)

/-- One stack frame of the JSON machine: an array collecting its elements
(in reverse), or an object collecting its fields (in reverse) together with
the key whose value is currently being read. -/
inductive Ctx where
  | arrC (elems : List Json)
  | objC (fields : List (String × Json)) (key : Option String)

/-- States of the JSON machine. -/
inductive M where
  | err
  | val (stk : List Ctx)
  | valA (stk : List Ctx)
  | mem0 (stk : List Ctx)
  | key (stk : List Ctx)
  | colon (stk : List Ctx)
  | strK (stk : List Ctx) (acc : List Char) (md : StrMode)
  | strV (stk : List Ctx) (acc : List Char) (md : StrMode)
  | numS (stk : List Ctx) (acc : List Char)
  | lit (stk : List Ctx) (rest : List Char) (v : Json)
  | after (stk : List Ctx)
  | done (v : Json)

/-- Result of feeding one character to the string lexer. -/
inductive StrRes where
  | cont (acc : List Char) (md : StrMode)
  | fin (s : String)
  | bad

def strStep (acc : List Char) (md : StrMode) (c : Char) : StrRes :=
  match md with
  | .plain =>
      if c = '"' then .fin ⟨acc.reverse⟩
      else if c = '\\' then .cont acc .esc
      else if c.toNat < 32 then .bad
      else .cont (c :: acc) .plain
  | .esc =>
      match unescChar c with
      | some d => .cont (d :: acc) .plain
      | none => if c = 'u' then .cont acc (.hex []) else .bad
  | .hex ds =>
      if isHexDigit c then
        if ds.length = 3 then .cont (Char.ofNat (hexVal (ds ++ [c])) :: acc) .plain
        else .cont acc (.hex (ds ++ [c]))
      else .bad

def numStart (c : Char) : Bool := c.isDigit || c == '-'

def numCont (c : Char) : Bool :=
  c.isDigit || c == '.' || c == 'e' || c == 'E' || c == '+' || c == '-'

def digitsToNat (ds : List Char) : ℕ :=
  ds.foldl (fun a c => a * 10 + (c.toNat - 48)) 0

def expPart (cs : List Char) : Option ℤ :=
  match cs with
  | [] => some 0
  | c :: t =>
      if c = 'e' ∨ c = 'E' then
        let (eneg, t1) :=
          match t with
          | '+' :: r => (false, r)
          | '-' :: r => (true, r)
          | _ => (false, t)
        let eds := t1.takeWhile Char.isDigit
        if eds = [] ∨ t1.dropWhile Char.isDigit ≠ [] then none
        else some (if eneg then -(digitsToNat eds : ℤ) else (digitsToNat eds : ℤ))
      else none

def applyExp (q : ℚ) (e : ℤ) : ℚ := if e = 0 then q else q * (10 : ℚ) ^ e

def applySign (neg : Bool) (q : ℚ) : ℚ := if neg then -q else q

/-- The JSON number grammar: optional minus, integer part without leading
zeros, optional fraction, optional exponent; evaluated exactly in `ℚ`. -/
def parseNumChars (cs : List Char) : Option ℚ :=
  let (neg, cs1) :=
    match cs with
    | '-' :: t => (true, t)
    | _ => (false, cs)
  let ids := cs1.takeWhile Char.isDigit
  let cs2 := cs1.dropWhile Char.isDigit
  if ids = [] then none
  else if ids.length > 1 ∧ ids.head? = some '0' then none
  else
    match cs2 with
    | '.' :: t =>
        let fds := t.takeWhile Char.isDigit
        let cs3 := t.dropWhile Char.isDigit
        if fds = [] then none
        else
          (expPart cs3).map fun e =>
            applySign neg (applyExp ((digitsToNat ids : ℚ) +
              (digitsToNat fds : ℚ) / (10 : ℚ) ^ fds.length) e)
    | _ =>
        (expPart cs2).map fun e =>
          applySign neg (applyExp (digitsToNat ids : ℚ) e)

/-- Merging a completed value into the enclosing frame. -/
def completeValue : List Ctx → Json → M
  | [], v => .done v
  | .arrC es :: stk, v => .after (.arrC (v :: es) :: stk)
  | .objC fs (some k) :: stk, v => .after (.objC ((k, v) :: fs) none :: stk)
  | .objC _ none :: _, _ => .err

/-- Dispatch on the first character of a value. -/
def valStart (stk : List Ctx) (c : Char) : M :=
  if isWs c then .val stk
  else if c = '"' then .strV stk [] .plain
  else if c = lbrace then .mem0 (.objC [] none :: stk)
  else if c = '[' then .valA (.arrC [] :: stk)
  else if c = 't' then .lit stk ['r', 'u', 'e'] (.bool true)
  else if c = 'f' then .lit stk ['a', 'l', 's', 'e'] (.bool false)
  else if c = 'n' then .lit stk ['u', 'l', 'l'] .null
  else if numStart c then .numS stk [c]
  else .err

/-- The machine transition for every state except a pending number. -/
def stepCore (m : M) (c : Char) : M :=
  match m with
  | .err => .err
  | .val stk => valStart stk c
  | .valA stk =>
      if isWs c then .valA stk
      else if c = ']' then
        match stk with
        | .arrC [] :: rest => completeValue rest (.arr [])
        | _ => .err
      else valStart stk c
  | .mem0 stk =>
      if isWs c then .mem0 stk
      else if c = '"' then .strK stk [] .plain
      else if c = rbrace then
        match stk with
        | .objC [] none :: rest => completeValue rest (.obj [])
        | _ => .err
      else .err
  | .key stk =>
      if isWs c then .key stk
      else if c = '"' then .strK stk [] .plain
      else .err
  | .colon stk =>
      if isWs c then .colon stk
      else if c = ':' then .val stk
      else .err
  | .strK stk acc md =>
      match strStep acc md c with
      | .cont acc' md' => .strK stk acc' md'
      | .fin s =>
          match stk with
          | .objC fs none :: rest => .colon (.objC fs (some s) :: rest)
          | _ => .err
      | .bad => .err
  | .strV stk acc md =>
      match strStep acc md c with
      | .cont acc' md' => .strV stk acc' md'
      | .fin s => completeValue stk (.str s)
      | .bad => .err
  | .numS _ _ => .err
  | .lit stk rest v =>
      match rest with
      | [] => .err
      | r :: rs =>
          if c = r then
            if rs = [] then completeValue stk v else .lit stk rs v
          else .err
  | .after stk =>
      if isWs c then .after stk
      else
        match stk with
        | .arrC es :: rest =>
            if c = ',' then .val (.arrC es :: rest)
            else if c = ']' then completeValue rest (.arr es.reverse)
            else .err
        | .objC fs none :: rest =>
            if c = ',' then .key (.objC fs none :: rest)
            else if c = rbrace then completeValue rest (.obj fs.reverse)
            else .err
        | _ => .err
  | .done v => if isWs c then .done v else .err

/-- The machine transition: a pending number token is closed by the first
non-number character, which is then handled normally. -/
def step (m : M) (c : Char) : M :=
  match m with
  | .numS stk acc =>
      if numCont c then .numS stk (c :: acc)
      else
        match parseNumChars acc.reverse with
        | some q => stepCore (completeValue stk (.num q)) c
        | none => .err
  | _ => stepCore m c

/-- Acceptance at end of input. -/
def finalizeM (m : M) : Option Json :=
  match m with
  | .done v => some v
  | .numS [] acc => (parseNumChars acc.reverse).map Json.num
  | _ => none

def runM (m : M) (cs : List Char) : M := cs.foldl step m

/-- The model of the platform `JSON.parse`: run the machine over the text;
`none` models a thrown `SyntaxError`. -/
def parseJson (s : String) : Option Json := finalizeM (runM (.val []) s.data)

/-- Index of the first occurrence of `needle` in a character list. -/
def findSub (needle : List Char) : List Char → Option ℕ
  | [] => if needle = [] then some 0 else none
  | c :: t =>
      if needle.isPrefixOf (c :: t) then some 0
      else (findSub needle t).map (· + 1)

/-- The lazy regex from geminiService line 34: the group captured by
`/```json([\s\S]*?)```/` — from the first occurrence of "```json" to the
first following "```". -/
def fencedGroup (s : String) : Option String :=
  match findSub ("```json".data) s.data with
  | none => none
  | some i =>
      let rest := s.data.drop (i + 7)
      match findSub ("```".data) rest with
      | none => none
      | some k => some ⟨rest.take k⟩

/-- The lazy regex from geminiService line 39: the whole match of
`/\[([\s\S]*?)\]/` — from the first `[` to the first following `]`. -/
def bracketSeg (s : String) : Option String :=
  match findSub (['[']) s.data with
  | none => none
  | some i =>
      let rest := s.data.drop (i + 1)
      match findSub ([']']) rest with
      | none => none
      | some k => some ⟨'[' :: rest.take k ++ [']']⟩

/-- geminiService lines 39–48: array-bracket strategy, then a raw parse of
the whole text; any parse failure is caught and yields the empty array. -/
def extractTail (s : String) : Json :=
  match bracketSeg s with
  | some seg => (parseJson seg).getD (.arr [])
  | none => (parseJson s).getD (.arr [])

/-- geminiService lines 31–49, `extractJson`: try the fenced ```json block
(skipped when its captured group is empty, since the empty string is falsy),
then the first bracketed substring, then the whole text; a parse failure
inside the `try` is caught and yields the empty array. -/
def extractJson (s : String) : Json :=
  match fencedGroup s with
  | some inner => if inner ≠ "" then (parseJson inner).getD (.arr []) else extractTail s
  | none => extractTail s

/-! ### The orchestration shell (App.tsx) -/

/-- geminiService line 51–101, `analyzePortfolio`. The AI collaborator is a
parameter: `key` is the stored credential (`getAIClient` throws when it is
absent), `svc` the outcome of the network request (`.error` models a thrown
failure, `.ok t` a response whose `.text` is `t`, possibly `undefined`).
The returned flag records whether an AI request was issued; the caught
rethrow on lines 97–100 keeps failures as failures. -/
def analyzePortfolio (symbols : Option (List String)) (key : Option String)
    (svc : Except Unit (Option String)) : Except Unit Json × Bool :=
  match symbols with
  | none => (.ok (.arr []), false)
  | some l =>
      if l = [] then (.ok (.arr []), false)
      else
        match key with
        | none => (.error (), false)
        | some _ =>
            match svc with
            | .error e => (.error e, true)
            | .ok t => (.ok (extractJson (t.getD ("[]"))), true)

/-- geminiService lines 103–149, `analyzeMarketTrends`, same collaborator
convention. -/
def analyzeMarketTrends (key : Option String) (svc : Except Unit (Option String)) :
    Except Unit Json :=
  match key with
  | none => .error ()
  | some _ =>
      match svc with
      | .error e => .error e
      | .ok t => .ok (extractJson (t.getD ("[]")))

/-- The component state of App.tsx that the handlers read and write.
`mySymbols` and `stockQuantities` are the locally persisted watch-list and
share counts; the parsed AI results are stored as the `Json` values that
`extractJson` returned. -/
structure AppState where
  mySymbols : List String
  stockQuantities : List (String × ℚ)
  trendStocks : Json
  portfolioStocks : Json
  errorMsg : Option String
  trendLoading : Bool
  portfolioLoading : Bool
  inputSymbol : String

/-- App.tsx line 84, the generic trend-failure message. -/
def trendsErrMsg : String := "無法取得市場資訊。請確認您的 API 金鑰是否正確，或稍後再試。"

/-- App.tsx line 124, the generic portfolio-failure message. -/
def portfolioErrMsg : String := "分析失敗。請確認您的 API 金鑰是否正確。"

/-- App.tsx lines 76–88, `handleFetchTrends`: clear the error, set loading,
await the trends call; store the data on success, set the generic message on
a caught failure, and clear loading in the `finally`. -/
def handleFetchTrends (key : Option String) (svc : Except Unit (Option String))
    (st : AppState) : AppState :=
  let st1 := { st with errorMsg := none, trendLoading := true }
  match analyzeMarketTrends key svc with
  | .ok data => { st1 with trendStocks := data, trendLoading := false }
  | .error _ => { st1 with errorMsg := some trendsErrMsg, trendLoading := false }

/-- App.tsx lines 115–128, `handleAnalyzePortfolio`: return early on an
empty watch-list, otherwise run the portfolio call with the same
success/failure handling. -/
def handleAnalyzePortfolio (key : Option String) (svc : Except Unit (Option String))
    (st : AppState) : AppState :=
  if st.mySymbols = [] then st
  else
    let st1 := { st with errorMsg := none, portfolioLoading := true }
    match (analyzePortfolio (some st.mySymbols) key svc).1 with
    | .ok data => { st1 with portfolioStocks := data, portfolioLoading := false }
    | .error _ => { st1 with errorMsg := some portfolioErrMsg, portfolioLoading := false }

/-- The separator class of the regex `/[, ]+/` in App.tsx line 92. -/
def isSep (c : Char) : Bool := c == ',' || c == ' '

/-- `String.prototype.split(/[, ]+/)`: tokens between maximal separator
runs, with a leading (resp. trailing) empty token when the string starts
(resp. ends) with a separator. The `Option` state is `some acc` while a
token is being accumulated (reversed) and `none` inside a separator run. -/
def splitAux : Option (List Char) → List Char → List (List Char)
  | st, [] =>
      match st with
      | some acc => [acc.reverse]
      | none => [[]]
  | st, c :: rest =>
      if isSep c then
        match st with
        | some acc => acc.reverse :: splitAux none rest
        | none => splitAux none rest
      else
        match st with
        | some acc => splitAux (some (c :: acc)) rest
        | none => splitAux (some [c]) rest

def splitSymbols (s : String) : List String :=
  (splitAux (some []) s.data).map fun l => ⟨l⟩

/-- `String.prototype.trim()` (restricted to the common whitespace). -/
def jsTrim (s : String) : String :=
  ⟨((s.data.dropWhile isWs).reverse.dropWhile isWs).reverse⟩

/-- `String.prototype.toUpperCase()` (character-wise ASCII upper-casing). -/
def jsToUpper (s : String) : String := ⟨s.data.map Char.toUpper⟩

/-- App.tsx lines 90–100, `handleAddSymbol`, as a function of the input
field and the current watch-list, returning the new watch-list and input
field: split the input on commas/spaces, trim, upper-case, drop empties,
drop the ones already in `mySymbols`, and append the rest. -/
def handleAddSymbol (inputSymbol : String) (mySymbols : List String) :
    List String × String :=
  if inputSymbol = "" then (mySymbols, inputSymbol)
  else
    let newSymbols :=
      ((splitSymbols inputSymbol).map fun s => jsToUpper (jsTrim s)).filter
        fun s => s.length > 0
    let uniqueNewSymbols := newSymbols.filter fun s => !(mySymbols.contains s)
    if uniqueNewSymbols.isEmpty then (mySymbols, inputSymbol)
    else (mySymbols ++ uniqueNewSymbols, "")

/-- A concrete app state with a non-trivial persisted watch-list, used to
evaluate the failure-handling behaviour. -/
def stCex : AppState :=
  ⟨["2330"], [("2330", 1000)], .arr [], .arr [], some portfolioErrMsg, false, false, ""⟩

/-- C8 counterexample: with a stored key, a *successful* service call whose
text is malformed (`"oops"` parses as no JSON at all, so `extractJson`
falls back to the empty array), `handleFetchTrends` stores the empty list
and finishes with `errorMsg = none`: a malformed AI response is **not**
reported to the user as a generic failure message (it even clears a
previously shown one), contrary to the claim. The watch-list survives. -/
theorem C8_malformed_without_message_counterexample :
    extractJson ("oops") = .arr [] ∧
      (handleFetchTrends (some ("k")) (.ok (some ("oops"))) stCex).errorMsg = none ∧
      stCex.errorMsg = some portfolioErrMsg ∧
      (handleFetchTrends (some ("k")) (.ok (some ("oops"))) stCex).mySymbols = ["2330"] :=
  ⟨rfl, rfl, rfl, rfl⟩

/-- C8 (amended): the handlers are total (no failure escapes them); both
always leave `mySymbols` and `stockQuantities` unchanged; a *thrown*
failure (missing key, network/service error) is reported via the generic
failure message — while a malformed but delivered response only produces an
empty parsed list, without an error message (see the counterexample). -/
theorem C8_failure_handling_amended (key : Option String)
    (svc : Except Unit (Option String)) (st : AppState) :
    ((handleFetchTrends key svc st).mySymbols = st.mySymbols ∧
      (handleFetchTrends key svc st).stockQuantities = st.stockQuantities) ∧
      ((handleAnalyzePortfolio key svc st).mySymbols = st.mySymbols ∧
        (handleAnalyzePortfolio key svc st).stockQuantities = st.stockQuantities) ∧
      (analyzeMarketTrends key svc = .error () →
        (handleFetchTrends key svc st).errorMsg = some trendsErrMsg) ∧
      (st.mySymbols ≠ [] → (analyzePortfolio (some st.mySymbols) key svc).1 = .error () →
        (handleAnalyzePortfolio key svc st).errorMsg = some portfolioErrMsg) := by
  refine ⟨?_, ?_, ?_, ?_⟩
  · cases h : analyzeMarketTrends key svc with
    | ok d => simp [handleFetchTrends, h]
    | error e => simp [handleFetchTrends, h]
  · unfold handleAnalyzePortfolio
    split
    · exact ⟨rfl, rfl⟩
    · cases h : (analyzePortfolio (some st.mySymbols) key svc).1 with
      | ok d => simp [h]
      | error e => simp [h]
  · intro herr
    simp [handleFetchTrends, herr]
  · intro hne herr
    simp [handleAnalyzePortfolio, hne, herr]

/-- C8 witness: with no stored key and a failing service, both handlers
keep the watch-list and quantities of the concrete state and show their
generic failure messages. -/
theorem C8_failure_handling_amended_witness :
    (handleFetchTrends none (.error ()) stCex).mySymbols = stCex.mySymbols ∧
      (handleAnalyzePortfolio none (.error ()) stCex).stockQuantities = stCex.stockQuantities ∧
      (handleFetchTrends none (.error ()) stCex).errorMsg = some trendsErrMsg ∧
      (handleAnalyzePortfolio none (.error ()) stCex).errorMsg = some portfolioErrMsg := by
  have h := C8_failure_handling_amended none (.error ()) stCex
  exact ⟨h.1.1, h.2.1.2, h.2.2.1 rfl, h.2.2.2 (by simp [stCex]) rfl⟩

/-- C9: with a null/undefined or empty symbol list, `analyzePortfolio`
returns the empty list at once — even without an API key — and issues no AI
request. -/
theorem C9_empty_portfolio (key : Option String) (svc : Except Unit (Option String)) :
    analyzePortfolio none key svc = (.ok (.arr []), false) ∧
      analyzePortfolio (some []) key svc = (.ok (.arr []), false) :=
  ⟨rfl, rfl⟩

/-- C10: evaluation at the failing input. The input `"NVDA NVDA"` against an
empty watch-list is split into two copies of `NVDA`; the filter on App.tsx
line 93 only compares against the pre-existing `mySymbols`, so both copies
are appended and the watch-list ends up with a duplicate. -/
theorem C10_duplicate_on_batch_input :
    handleAddSymbol ("NVDA NVDA") [] = (["NVDA", "NVDA"], "") ∧
      ¬ (handleAddSymbol ("NVDA NVDA") []).1.Nodup := by
  exact ⟨rfl, by decide⟩

/-! ### C7: behaviour of `extractJson` on bare JSON arrays -/

/-- The AI response used as counterexample: a bare JSON array holding one
stock-analysis record (the exact fields of the `StockAnalysis` shape the
prompt requests) whose `analysis` text mentions a price range in square
brackets. -/
def cexStr : String :=
  "[\x7b\"symbol\":\"2330\",\"name\":\"TSMC\",\"marketCap\":\"600B\",\"high52Week\":1100,\"low52Week\":780,\"currentPrice\":1000,\"suggestBuyPrice\":950,\"suggestSellPrice\":1150,\"recommendation\":\"HOLD\",\"analysis\":\"support zone [950, 1000] holds\",\"projectedAnnualYield\":\"2%\",\"exampleScenario\":\"buy near support\"\x7d]"

set_option maxRecDepth 8000

/-- The record held by `cexStr`. -/
def cexRec : List (String × Json) :=
  [("symbol", .str "2330"), ("name", .str "TSMC"), ("marketCap", .str "600B"),
    ("high52Week", .num 1100), ("low52Week", .num 780), ("currentPrice", .num 1000),
    ("suggestBuyPrice", .num 950), ("suggestSellPrice", .num 1150),
    ("recommendation", .str "HOLD"), ("analysis", .str "support zone [950, 1000] holds"),
    ("projectedAnnualYield", .str "2%"), ("exampleScenario", .str "buy near support")]

/-- C7 counterexample: `cexStr` holds a bare JSON array of one
stock-analysis record (`JSON.parse` accepts the whole text), but the lazy
regex `/\[([\s\S]*?)\]/` on geminiService line 39 cuts the text at the
*first* `]` — here inside the `analysis` string — so the selected slice is
not valid JSON and `extractJson` falls back to the empty array instead of
returning the parsed array. -/
theorem C7_lazy_bracket_counterexample :
    parseJson cexStr = some (.arr [.obj cexRec]) ∧
      extractJson cexStr = .arr [] ∧
      Json.arr [] ≠ Json.arr [.obj cexRec] := by
  refine ⟨rfl, rfl, ?_⟩
  simp [cexRec]

/-- A list of JSON-insignificant whitespace. -/
def allWs (w : List Char) : Prop := ∀ c ∈ w, isWs c = true

/-- The backquote character. -/
def backquote : Char := Char.ofNat 96

lemma runM_append (m : M) (a b : List Char) : runM m (a ++ b) = runM (runM m a) b := by
  unfold runM
  exact List.foldl_append step m a b

lemma runM_cons (m : M) (c : Char) (t : List Char) : runM m (c :: t) = runM (step m c) t :=
  rfl

lemma ws_enum {c : Char} (h : isWs c = true) :
    c = ' ' ∨ c = '\t' ∨ c = '\n' ∨ c = '\r' := by
  have h' := h
  simp only [isWs, Bool.or_eq_true, beq_iff_eq] at h'
  tauto

lemma ws_not_numCont {c : Char} (h : isWs c = true) : numCont c = false := by
  rcases ws_enum h with h | h | h | h <;> subst h <;> decide

lemma ws_ne {c : Char} (h : isWs c = true) (c' : Char) (h' : isWs c' = false) : c ≠ c' := by
  intro he
  rw [he, h'] at h
  exact Bool.false_ne_true h

lemma numStart_isWs {c : Char} (h : numStart c = true) : isWs c = false := by
  cases hx : isWs c with
  | false => rfl
  | true => rcases ws_enum hx with h' | h' | h' | h' <;> subst h' <;> simp [numStart] at h

lemma numStart_ne {c : Char} (h : numStart c = true) (c' : Char)
    (h' : numStart c' = false) : c ≠ c' := by
  intro he
  rw [he, h'] at h
  exact Bool.false_ne_true h

lemma valStart_ws {stk : List Ctx} {c : Char} (h : isWs c = true) :
    valStart stk c = .val stk := by
  unfold valStart
  rw [if_pos h]

lemma valStart_num {stk : List Ctx} {c : Char} (h : numStart c = true) :
    valStart stk c = .numS stk [c] := by
  unfold valStart
  rw [if_neg (by simp [numStart_isWs h]),
    if_neg (numStart_ne h _ (by decide)), if_neg (numStart_ne h _ (by decide)),
    if_neg (numStart_ne h _ (by decide)), if_neg (numStart_ne h _ (by decide)),
    if_neg (numStart_ne h _ (by decide)), if_neg (numStart_ne h _ (by decide)),
    if_pos h]

lemma valStart_quote {stk : List Ctx} : valStart stk '"' = .strV stk [] .plain := by
  unfold valStart
  rw [if_neg (by decide : ¬ (isWs '"' = true)), if_pos rfl]

lemma valStart_lbrace {stk : List Ctx} :
    valStart stk lbrace = .mem0 (.objC [] none :: stk) := by
  unfold valStart
  rw [if_neg (by decide : ¬ (isWs lbrace = true)),
    if_neg (by decide : ¬ (lbrace = '"')), if_pos rfl]

lemma step_eq_stepCore {m : M} (h : ∀ stk acc, m ≠ .numS stk acc) (c : Char) :
    step m c = stepCore m c := by
  cases m with
  | numS stk acc => exact absurd rfl (h stk acc)
  | _ => rfl

lemma step_ws_completeValue {stk : List Ctx} {v : Json} {c : Char} (h : isWs c = true) :
    step (completeValue stk v) c = completeValue stk v := by
  cases stk with
  | nil => simp [completeValue, step, stepCore, h]
  | cons f rest =>
      cases f with
      | arrC es => simp [completeValue, step, stepCore, h]
      | objC fs k =>
          cases k with
          | none => simp [completeValue, step, stepCore]
          | some s => simp [completeValue, step, stepCore, h]

lemma runM_of_ws_stable {m : M} (h : ∀ c, isWs c = true → step m c = m) :
    ∀ {w : List Char}, allWs w → runM m w = m := by
  intro w
  induction w with
  | nil => intro _; rfl
  | cons c t ih =>
      intro hw
      rw [runM_cons, h c (hw c (by simp))]
      exact ih fun x hx => hw x (by simp [hx])

lemma runM_ws_completeValue {stk : List Ctx} {v : Json} {w : List Char} (hw : allWs w) :
    runM (completeValue stk v) w = completeValue stk v :=
  runM_of_ws_stable (fun _ hc => step_ws_completeValue hc) hw

lemma step_ws_val {stk : List Ctx} {c : Char} (h : isWs c = true) :
    step (.val stk) c = .val stk := by
  simp [step, stepCore, valStart_ws h]

lemma step_ws_valA {stk : List Ctx} {c : Char} (h : isWs c = true) :
    step (.valA stk) c = .valA stk := by
  simp [step, stepCore, h]

lemma step_ws_mem0 {stk : List Ctx} {c : Char} (h : isWs c = true) :
    step (.mem0 stk) c = .mem0 stk := by
  simp [step, stepCore, h]

lemma step_ws_key {stk : List Ctx} {c : Char} (h : isWs c = true) :
    step (.key stk) c = .key stk := by
  simp [step, stepCore, h]

lemma step_ws_colon {stk : List Ctx} {c : Char} (h : isWs c = true) :
    step (.colon stk) c = .colon stk := by
  simp [step, stepCore, h]

lemma step_ws_after {stk : List Ctx} {c : Char} (h : isWs c = true) :
    step (.after stk) c = .after stk := by
  simp [step, stepCore, h]

/-- Flexible rendering of the decoded characters of a JSON string: each
character is written either literally or through one of the single-character
escapes. -/
inductive SRep : List Char → List Char → Prop where
  | nil : SRep [] []
  | plain (c : Char) (d r : List Char) (h1 : c ≠ '"') (h2 : c ≠ '\\')
      (h3 : 32 ≤ c.toNat) (ht : SRep d r) : SRep (c :: d) (c :: r)
  | esc (c e : Char) (d r : List Char) (he : unescChar e = some c) (ht : SRep d r) :
      SRep (c :: d) ('\\' :: e :: r)

lemma strStep_plain_char {acc : List Char} {c : Char} (h1 : c ≠ '"') (h2 : c ≠ '\\')
    (h3 : 32 ≤ c.toNat) : strStep acc .plain c = .cont (c :: acc) .plain := by
  unfold strStep
  rw [if_neg h1, if_neg h2, if_neg (Nat.not_lt.mpr h3)]

lemma strStep_plain_bslash {acc : List Char} : strStep acc .plain '\\' = .cont acc .esc := by
  unfold strStep
  rw [if_neg (by decide : ¬ ('\\' = '"')), if_pos rfl]

lemma strStep_plain_quote {acc : List Char} : strStep acc .plain '"' = .fin ⟨acc.reverse⟩ := by
  unfold strStep
  rw [if_pos rfl]

lemma strStep_esc {c e : Char} {acc : List Char} (he : unescChar e = some c) :
    strStep acc .esc e = .cont (c :: acc) .plain := by
  unfold strStep
  rw [he]

lemma srep_run_strV {d r : List Char} (h : SRep d r) (stk : List Ctx) :
    ∀ acc, runM (.strV stk acc .plain) r = .strV stk (d.reverse ++ acc) .plain := by
  induction h with
  | nil => intro acc; simp [runM]
  | plain c d r h1 h2 h3 ht ih =>
      intro acc
      rw [runM_cons]
      have hs : step (.strV stk acc .plain) c = .strV stk (c :: acc) .plain := by
        simp only [step, stepCore, strStep_plain_char h1 h2 h3]
      rw [hs, ih]
      simp
  | esc c e d r he ht ih =>
      intro acc
      rw [runM_cons]
      have hs1 : step (.strV stk acc .plain) '\\' = .strV stk acc .esc := by
        simp only [step, stepCore, strStep_plain_bslash]
      rw [hs1, runM_cons]
      have hs2 : step (.strV stk acc .esc) e = .strV stk (c :: acc) .plain := by
        simp only [step, stepCore, strStep_esc he]
      rw [hs2, ih]
      simp

lemma srep_run_strK {d r : List Char} (h : SRep d r) (stk : List Ctx) :
    ∀ acc, runM (.strK stk acc .plain) r = .strK stk (d.reverse ++ acc) .plain := by
  induction h with
  | nil => intro acc; simp [runM]
  | plain c d r h1 h2 h3 ht ih =>
      intro acc
      rw [runM_cons]
      have hs : step (.strK stk acc .plain) c = .strK stk (c :: acc) .plain := by
        simp only [step, stepCore, strStep_plain_char h1 h2 h3]
      rw [hs, ih]
      simp
  | esc c e d r he ht ih =>
      intro acc
      rw [runM_cons]
      have hs1 : step (.strK stk acc .plain) '\\' = .strK stk acc .esc := by
        simp only [step, stepCore, strStep_plain_bslash]
      rw [hs1, runM_cons]
      have hs2 : step (.strK stk acc .esc) e = .strK stk (c :: acc) .plain := by
        simp only [step, stepCore, strStep_esc he]
      rw [hs2, ih]
      simp

lemma runM_numAcc {t : List Char} (h : ∀ c ∈ t, numCont c = true) (stk : List Ctx) :
    ∀ acc, runM (.numS stk acc) t = .numS stk (t.reverse ++ acc) := by
  induction t with
  | nil => intro acc; simp [runM]
  | cons c t ih =>
      intro acc
      rw [runM_cons]
      have hs : step (.numS stk acc) c = .numS stk (c :: acc) := by
        simp only [step]
        rw [if_pos (h c (by simp))]
      rw [hs, ih fun x hx => h x (by simp [hx])]
      simp

/-- A scalar field value (a string or a number) together with one of its
renderings. -/
def ScalRep (v : Json) (vc : List Char) : Prop :=
  (∃ s sr, v = .str s ∧ SRep s.data sr ∧ vc = '"' :: sr ++ ['"']) ∨
    (∃ q c t, v = .num q ∧ vc = c :: t ∧ numStart c = true ∧
      (∀ x ∈ vc, numCont x = true) ∧ parseNumChars vc = some q)

/-- After reading a value the machine is either already past it (the value
merged into the frame) or sitting on a pending number token. -/
def ValueDone (stk : List Ctx) (v : Json) (m : M) : Prop :=
  m = completeValue stk v ∨
    ∃ q acc, v = .num q ∧ m = .numS stk acc ∧ parseNumChars acc.reverse = some q

lemma completeValue_ne_numS (stk : List Ctx) (v : Json) (stk' : List Ctx)
    (acc : List Char) : completeValue stk v ≠ .numS stk' acc := by
  cases stk with
  | nil => simp [completeValue]
  | cons f rest =>
      cases f with
      | arrC es => simp [completeValue]
      | objC fs k => cases k <;> simp [completeValue]

lemma scal_run {v : Json} {vc : List Char} (h : ScalRep v vc) (stk : List Ctx) :
    ValueDone stk v (runM (.val stk) vc) := by
  rcases h with ⟨s, sr, hv, hsr, hvc⟩ | ⟨q, c, t, hv, hvc, hstart, hall, hp⟩
  · subst hv hvc
    have h1 : step (.val stk) '"' = .strV stk [] .plain := by
      simp only [step, stepCore, valStart_quote]
    have h2 : runM (.strV stk (s.data.reverse ++ []) .plain) (['"']) =
        completeValue stk (.str s) := by
      show step (.strV stk (s.data.reverse ++ []) .plain) '"' = _
      simp only [step, stepCore, strStep_plain_quote]
      simp
    have hone : runM (.val stk) ('"' :: sr) = .strV stk (s.data.reverse ++ []) .plain := by
      rw [runM_cons, h1, srep_run_strV hsr]
    rw [runM_append, hone, h2]
    exact Or.inl rfl
  · subst hv hvc
    rw [runM_cons]
    have h1 : step (.val stk) c = .numS stk [c] := by
      simp only [step, stepCore, valStart_num hstart]
    rw [h1, runM_numAcc (fun x hx => hall x (by simp [hx]))]
    refine Or.inr ⟨q, t.reverse ++ [c], rfl, rfl, ?_⟩
    simpa using hp

lemma valueDone_ws {stk : List Ctx} {v : Json} {m : M} (h : ValueDone stk v m)
    {w : List Char} (hw : allWs w) : ValueDone stk v (runM m w) := by
  rcases h with h | ⟨q, acc, hv, hm, hp⟩
  · subst h
    rw [runM_ws_completeValue hw]
    exact Or.inl rfl
  · subst hv hm
    cases w with
    | nil => exact Or.inr ⟨q, acc, rfl, rfl, hp⟩
    | cons c w' =>
        rw [runM_cons]
        have hc : isWs c = true := hw c (by simp)
        have hs : step (.numS stk acc) c = completeValue stk (.num q) := by
          simp only [step]
          rw [if_neg (by simp [ws_not_numCont hc]), hp]
          have := @step_ws_completeValue stk (Json.num q) c hc
          rw [step_eq_stepCore (completeValue_ne_numS stk (.num q)) c] at this
          exact this
        rw [hs, runM_ws_completeValue fun x hx => hw x (by simp [hx])]
        exact Or.inl rfl

lemma valueDone_step {stk : List Ctx} {v : Json} {m : M} {c : Char}
    (h : ValueDone stk v m) (hc : numCont c = false) :
    step m c = stepCore (completeValue stk v) c := by
  rcases h with h | ⟨q, acc, hv, hm, hp⟩
  · subst h
    exact step_eq_stepCore (completeValue_ne_numS stk v) c
  · subst hv hm
    simp only [step]
    rw [if_neg (by simp [hc]), hp]

lemma step_mem0_quote (stk : List Ctx) : step (.mem0 stk) '"' = .strK stk [] .plain := by
  simp only [step, stepCore]
  rw [if_neg (by decide : ¬ (isWs '"' = true))]
  simp

lemma step_key_quote (stk : List Ctx) : step (.key stk) '"' = .strK stk [] .plain := by
  simp only [step, stepCore]
  rw [if_neg (by decide : ¬ (isWs '"' = true))]
  simp

lemma step_strK_fin (fs : List (String × Json)) (stk : List Ctx) (acc : List Char) :
    step (.strK (.objC fs none :: stk) acc .plain) '"' =
      .colon (.objC fs (some ⟨acc.reverse⟩) :: stk) := by
  simp only [step, stepCore, strStep_plain_quote]

lemma step_colon_colon (stk : List Ctx) : step (.colon stk) ':' = .val stk := by
  simp only [step, stepCore]
  rw [if_neg (by decide : ¬ (isWs ':' = true))]
  simp

/-- One `"key": value` member together with one of its renderings. -/
def FieldRep (k : String) (v : Json) (fc : List Char) : Prop :=
  ∃ w1 kr w2 w3 vc, allWs w1 ∧ SRep k.data kr ∧ allWs w2 ∧ allWs w3 ∧ ScalRep v vc ∧
    fc = w1 ++ '"' :: kr ++ '"' :: w2 ++ ':' :: w3 ++ vc

lemma field_run {k : String} {v : Json} {fc : List Char} (h : FieldRep k v fc)
    (fs0 : List (String × Json)) (stk : List Ctx) {m0 : M}
    (hm : m0 = .mem0 (.objC fs0 none :: stk) ∨ m0 = .key (.objC fs0 none :: stk)) :
    ValueDone (.objC fs0 (some k) :: stk) v (runM m0 fc) := by
  obtain ⟨w1, kr, w2, w3, vc, hw1, hkr, hw2, hw3, hvc, hfc⟩ := h
  subst hfc
  have hm0ws : runM m0 w1 = m0 := by
    rcases hm with hm | hm <;> subst hm
    · exact runM_of_ws_stable (fun _ hc => step_ws_mem0 hc) hw1
    · exact runM_of_ws_stable (fun _ hc => step_ws_key hc) hw1
  have hq : step m0 '"' = .strK (.objC fs0 none :: stk) [] .plain := by
    rcases hm with hm | hm <;> subst hm
    · exact step_mem0_quote _
    · exact step_key_quote _
  have hkey : runM m0 ('"' :: kr) = .strK (.objC fs0 none :: stk) (k.data.reverse ++ []) .plain := by
    rw [runM_cons, hq, srep_run_strK hkr]
  have hcol : runM (.strK (.objC fs0 none :: stk) (k.data.reverse ++ []) .plain) ('"' :: w2) =
      .colon (.objC fs0 (some k) :: stk) := by
    rw [runM_cons, step_strK_fin]
    have hk : (⟨(k.data.reverse ++ []).reverse⟩ : String) = k := by
      simp
    rw [hk]
    exact runM_of_ws_stable (fun _ hc => step_ws_colon hc) hw2
  have hval : runM (.colon (.objC fs0 (some k) :: stk)) (':' :: w3) =
      .val (.objC fs0 (some k) :: stk) := by
    rw [runM_cons, step_colon_colon]
    exact runM_of_ws_stable (fun _ hc => step_ws_val hc) hw3
  simp only [runM_append]
  rw [hm0ws, hkey, hcol, hval]
  exact scal_run hvc _

/-- After reading a (non-empty) list of members the machine is past the last
value or on its pending number token, with the fields collected in reverse
in the top frame. -/
def AfterObj (fs' : List (String × Json)) (stk : List Ctx) (m : M) : Prop :=
  m = .after (.objC fs' none :: stk) ∨
    ∃ k q fsp acc, fs' = (k, .num q) :: fsp ∧
      m = .numS (.objC fsp (some k) :: stk) acc ∧ parseNumChars acc.reverse = some q

lemma valueDone_afterObj {k : String} {v : Json} {fs0 : List (String × Json)}
    {stk : List Ctx} {m : M} (h : ValueDone (.objC fs0 (some k) :: stk) v m) :
    AfterObj ((k, v) :: fs0) stk m := by
  rcases h with h | ⟨q, acc, hv, hm, hp⟩
  · exact Or.inl h
  · subst hv
    exact Or.inr ⟨k, q, fs0, acc, rfl, hm, hp⟩

lemma afterObj_ws {fs' : List (String × Json)} {stk : List Ctx} {m : M}
    (h : AfterObj fs' stk m) {w : List Char} (hw : allWs w) :
    AfterObj fs' stk (runM m w) := by
  rcases h with h | ⟨k, q, fsp, acc, hfs, hm, hp⟩
  · subst h
    rw [runM_of_ws_stable (fun _ hc => step_ws_after hc) hw]
    exact Or.inl rfl
  · subst hfs hm
    cases w with
    | nil => exact Or.inr ⟨k, q, fsp, acc, rfl, rfl, hp⟩
    | cons c w' =>
        rw [runM_cons]
        have hc : isWs c = true := hw c (by simp)
        have hs : step (.numS (.objC fsp (some k) :: stk) acc) c =
            .after (.objC ((k, .num q) :: fsp) none :: stk) := by
          simp only [step]
          rw [if_neg (by simp [ws_not_numCont hc]), hp]
          show step (completeValue (.objC fsp (some k) :: stk) (.num q)) c = _
          rw [step_ws_completeValue hc]
          rfl
        rw [hs, runM_of_ws_stable (fun _ hx => step_ws_after hx)
          fun x hx => hw x (by simp [hx])]
        exact Or.inl rfl

lemma afterObj_comma {fs' : List (String × Json)} {stk : List Ctx} {m : M}
    (h : AfterObj fs' stk m) : step m ',' = .key (.objC fs' none :: stk) := by
  have hcomma : ∀ s : List Ctx, ∀ fsx : List (String × Json),
      stepCore (.after (.objC fsx none :: s)) ',' = .key (.objC fsx none :: s) := by
    intro s fsx
    simp only [stepCore]
    rw [if_neg (by decide : ¬ (isWs ',' = true))]
    simp
  rcases h with h | ⟨k, q, fsp, acc, hfs, hm, hp⟩
  · subst h
    exact hcomma stk fs'
  · subst hfs hm
    simp only [step]
    rw [if_neg (by decide : ¬ (numCont ',' = true)), hp]
    exact hcomma stk ((k, .num q) :: fsp)

lemma afterObj_rbrace {fs' : List (String × Json)} {stk : List Ctx} {m : M}
    (h : AfterObj fs' stk m) : step m rbrace = completeValue stk (.obj fs'.reverse) := by
  have hclose : ∀ s : List Ctx, ∀ fsx : List (String × Json),
      stepCore (.after (.objC fsx none :: s)) rbrace = completeValue s (.obj fsx.reverse) := by
    intro s fsx
    simp only [stepCore]
    rw [if_neg (by decide : ¬ (isWs rbrace = true)),
      if_neg (by decide : ¬ (rbrace = ','))]
    simp
  rcases h with h | ⟨k, q, fsp, acc, hfs, hm, hp⟩
  · subst h
    exact hclose stk fs'
  · subst hfs hm
    simp only [step]
    rw [if_neg (by decide : ¬ (numCont rbrace = true)), hp]
    exact hclose stk ((k, .num q) :: fsp)

/-- A comma-separated list of members (each with trailing whitespace). -/
inductive FieldsRep : List (String × Json) → List Char → Prop where
  | single (k : String) (v : Json) (fc w : List Char) (hf : FieldRep k v fc)
      (hw : allWs w) : FieldsRep [(k, v)] (fc ++ w)
  | cons (k : String) (v : Json) (fc w : List Char) (fs : List (String × Json))
      (rest : List Char) (hf : FieldRep k v fc) (hw : allWs w) (ht : FieldsRep fs rest) :
      FieldsRep ((k, v) :: fs) (fc ++ w ++ ',' :: rest)

lemma fields_run {fs : List (String × Json)} {body : List Char} (h : FieldsRep fs body) :
    ∀ (fs0 : List (String × Json)) (stk : List Ctx) (m0 : M),
      (m0 = .mem0 (.objC fs0 none :: stk) ∨ m0 = .key (.objC fs0 none :: stk)) →
      AfterObj (fs.reverse ++ fs0) stk (runM m0 body) := by
  induction h with
  | single k v fc w hf hw =>
      intro fs0 stk m0 hm
      rw [runM_append]
      have := afterObj_ws (valueDone_afterObj (field_run hf fs0 stk hm)) hw
      simpa using this
  | cons k v fc w fs rest hf hw ht ih =>
      intro fs0 stk m0 hm
      rw [runM_append, runM_append, runM_cons]
      have h1 := afterObj_ws (valueDone_afterObj (field_run hf fs0 stk hm)) hw
      rw [afterObj_comma h1]
      have h2 := ih ((k, v) :: fs0) stk _ (Or.inr rfl)
      simpa using h2

lemma runM_nil (m : M) : runM m [] = m := rfl

lemma step_val_lbrace (stk : List Ctx) :
    step (.val stk) lbrace = .mem0 (.objC [] none :: stk) := by
  simp only [step, stepCore, valStart_lbrace]

lemma step_valA_lbrace (stk : List Ctx) :
    step (.valA stk) lbrace = .mem0 (.objC [] none :: stk) := by
  simp only [step, stepCore]
  rw [if_neg (by decide : ¬ (isWs lbrace = true)),
    if_neg (by decide : ¬ (lbrace = ']'))]
  exact valStart_lbrace

lemma step_mem0_rbrace_empty (stk : List Ctx) :
    step (.mem0 (.objC [] none :: stk)) rbrace = completeValue stk (.obj []) := by
  simp only [step, stepCore]
  rw [if_neg (by decide : ¬ (isWs rbrace = true)),
    if_neg (by decide : ¬ (rbrace = '"'))]
  simp

/-- A whole object literal together with one of its renderings. -/
def ObjRep (fs : List (String × Json)) (oc : List Char) : Prop :=
  ∃ inner, oc = lbrace :: inner ++ [rbrace] ∧
    ((fs = [] ∧ allWs inner) ∨ FieldsRep fs inner)

lemma obj_run {fs : List (String × Json)} {oc : List Char} (h : ObjRep fs oc)
    (stk : List Ctx) {m0 : M} (hm : m0 = .val stk ∨ m0 = .valA stk) :
    runM m0 oc = completeValue stk (.obj fs) := by
  obtain ⟨inner, hoc, hin⟩ := h
  subst hoc
  have hstep : step m0 lbrace = .mem0 (.objC [] none :: stk) := by
    rcases hm with hm | hm <;> subst hm
    · exact step_val_lbrace _
    · exact step_valA_lbrace _
  rcases hin with ⟨hfs, hw⟩ | hfr
  · subst hfs
    simp only [runM_append, runM_cons, runM_nil]
    rw [hstep, runM_of_ws_stable (fun _ hc => step_ws_mem0 hc) hw,
      step_mem0_rbrace_empty]
  · simp only [runM_append, runM_cons, runM_nil]
    rw [hstep]
    have h2 := fields_run hfr [] stk _ (Or.inl rfl)
    rw [afterObj_rbrace h2]
    simp

lemma step_after_arr_comma (es : List Json) (stk : List Ctx) :
    step (.after (.arrC es :: stk)) ',' = .val (.arrC es :: stk) := by
  simp only [step, stepCore]
  rw [if_neg (by decide : ¬ (isWs ',' = true))]
  simp

lemma step_after_arr_close (es : List Json) (stk : List Ctx) :
    step (.after (.arrC es :: stk)) ']' = completeValue stk (.arr es.reverse) := by
  simp only [step, stepCore]
  rw [if_neg (by decide : ¬ (isWs ']' = true))]
  simp

lemma valStart_lbrack (stk : List Ctx) : valStart stk '[' = .valA (.arrC [] :: stk) := by
  unfold valStart
  rw [if_neg (by decide : ¬ (isWs '[' = true)), if_neg (by decide : ¬ ('[' = '"')),
    if_neg (by decide : ¬ ('[' = lbrace)), if_pos rfl]

lemma step_val_lbrack (stk : List Ctx) : step (.val stk) '[' = .valA (.arrC [] :: stk) := by
  simp only [step, stepCore, valStart_lbrack]

lemma step_valA_close_empty (stk : List Ctx) :
    step (.valA (.arrC [] :: stk)) ']' = completeValue stk (.arr []) := by
  simp only [step, stepCore]
  rw [if_neg (by decide : ¬ (isWs ']' = true))]
  simp

/-- A comma-separated list of object elements (each with trailing
whitespace), the inner text of a non-empty record array. -/
inductive ElemsRep : List Json → List Char → Prop where
  | single (fs : List (String × Json)) (oc w : List Char) (ho : ObjRep fs oc)
      (hw : allWs w) : ElemsRep [.obj fs] (oc ++ w)
  | cons (fs : List (String × Json)) (oc w : List Char) (es : List Json)
      (rest : List Char) (ho : ObjRep fs oc) (hw : allWs w) (ht : ElemsRep es rest) :
      ElemsRep (.obj fs :: es) (oc ++ w ++ ',' :: rest)

lemma elems_run {es : List Json} {body : List Char} (h : ElemsRep es body) :
    ∀ (es0 : List Json) (stk : List Ctx) (m0 : M),
      (m0 = .val (.arrC es0 :: stk) ∨ m0 = .valA (.arrC es0 :: stk)) →
      runM m0 body = .after (.arrC (es.reverse ++ es0) :: stk) := by
  induction h with
  | single fs oc w ho hw =>
      intro es0 stk m0 hm
      simp only [runM_append]
      rw [obj_run ho _ hm]
      show runM (.after (.arrC (.obj fs :: es0) :: stk)) w = _
      rw [runM_of_ws_stable (fun _ hc => step_ws_after hc) hw]
      simp
  | cons fs oc w es rest ho hw ht ih =>
      intro es0 stk m0 hm
      simp only [runM_append, runM_cons]
      rw [obj_run ho _ hm]
      show runM (step (runM (.after (.arrC (.obj fs :: es0) :: stk)) w) ',') rest = _
      rw [runM_of_ws_stable (fun _ hc => step_ws_after hc) hw, step_after_arr_comma]
      have h2 := ih (.obj fs :: es0) stk _ (Or.inl rfl)
      rw [h2]
      simp

/-- A whole bare-array text: `[`, either whitespace (the empty array) or a
list of record elements, and the closing `]`. -/
def ArrRep (vs : List Json) (cs : List Char) : Prop :=
  ∃ inner, cs = '[' :: inner ++ [']'] ∧
    ((vs = [] ∧ allWs inner) ∨ ElemsRep vs inner)

lemma arr_run {vs : List Json} {cs : List Char} (h : ArrRep vs cs) :
    runM (.val []) cs = .done (.arr vs) := by
  obtain ⟨inner, hcs, hin⟩ := h
  subst hcs
  simp only [runM_append, runM_cons, runM_nil]
  rw [step_val_lbrack]
  rcases hin with ⟨hvs, hw⟩ | hel
  · subst hvs
    rw [runM_of_ws_stable (fun _ hc => step_ws_valA hc) hw, step_valA_close_empty]
    rfl
  · rw [elems_run hel [] [] _ (Or.inr rfl), step_after_arr_close]
    simp [completeValue]

/-- A representation of a bare record array is accepted by the JSON parser
with exactly that array as its value. -/
lemma parseJson_of_arrRep {vs : List Json} {cs : List Char} (h : ArrRep vs cs) :
    parseJson ⟨cs⟩ = some (.arr vs) := by
  show finalizeM (runM (.val []) cs) = _
  rw [arr_run h]
  rfl

lemma findSub_none_of_head {nh : Char} {nt : List Char} :
    ∀ {hay : List Char}, nh ∉ hay → findSub (nh :: nt) hay = none := by
  intro hay
  induction hay with
  | nil => intro _; rfl
  | cons c t ih =>
      intro h
      have hne : nh ≠ c := fun he => h (by simp [he])
      have hpre : (nh :: nt).isPrefixOf (c :: t) = false := by
        simp [List.isPrefixOf, hne]
      simp only [findSub]
      rw [if_neg (by simp [hpre]), ih fun hx => h (by simp [hx])]
      rfl

lemma findSub_single {c : Char} :
    ∀ {l1 l2 : List Char}, c ∉ l1 → findSub [c] (l1 ++ c :: l2) = some l1.length := by
  intro l1
  induction l1 with
  | nil =>
      intro l2 _
      simp only [List.nil_append, findSub]
      rw [if_pos (by simp [List.isPrefixOf])]
      rfl
  | cons a t ih =>
      intro l2 h
      have hne : c ≠ a := fun he => h (by simp [he])
      simp only [List.cons_append, findSub, List.append_eq]
      rw [if_neg (by simp [List.isPrefixOf, hne]), ih fun hx => h (by simp [hx])]
      rfl

lemma allWs_not_mem {w : List Char} (hw : allWs w) {c : Char} (hc : isWs c = false) :
    c ∉ w :=
  fun hmem => absurd (hw c hmem) (by simp [hc])

lemma fencedGroup_none {s : String} (h : backquote ∉ s.data) : fencedGroup s = none := by
  obtain ⟨nt, hn⟩ : ∃ nt, ("```json".data) = backquote :: nt := ⟨_, rfl⟩
  unfold fencedGroup
  rw [hn, findSub_none_of_head h]

lemma bracketSeg_decomp {s : String} {ws1 inner ws2 : List Char}
    (hs : s.data = ws1 ++ ('[' :: inner ++ [']']) ++ ws2)
    (h1 : '[' ∉ ws1) (h2 : ']' ∉ inner) :
    bracketSeg s = some ⟨'[' :: inner ++ [']']⟩ := by
  have hre : ws1 ++ ('[' :: inner ++ [']']) ++ ws2 = ws1 ++ '[' :: (inner ++ ']' :: ws2) := by
    simp
  have hdrop : (ws1 ++ '[' :: (inner ++ ']' :: ws2)).drop (ws1.length + 1) =
      inner ++ ']' :: ws2 := by
    rw [show ws1 ++ '[' :: (inner ++ ']' :: ws2) =
        (ws1 ++ ['[']) ++ (inner ++ ']' :: ws2) from by simp,
      show ws1.length + 1 = (ws1 ++ ['[']).length from by simp]
    exact List.drop_left _ _
  have htake : (inner ++ ']' :: ws2).take inner.length = inner := List.take_left _ _
  unfold bracketSeg
  rw [hs, hre]
  simp only [findSub_single h1, hdrop, findSub_single h2, htake]

/-- C7 (amended): for every AI response that consists of a bare JSON array
of flat records (string/number fields, flexible whitespace and string
escapes) surrounded only by whitespace, containing no backquote and no `]`
other than the array's closing bracket, `extractJson` returns exactly the
parsed array. (The ordered fenced-block → bracket → raw strategies and the
fall-back to the empty list on parse failure are the definition of
`extractJson`; the counterexample shows the `]`-restriction is necessary,
because the lazy bracket regex cuts the text at the first `]`.) -/
theorem C7_extract_bare_array_amended (s : String) (vs : List Json)
    (ws1 core ws2 : List Char)
    (hs : s.data = ws1 ++ core ++ ws2)
    (hw1 : allWs ws1) (hw2 : allWs ws2)
    (hrep : ArrRep vs core)
    (hbq : backquote ∉ s.data)
    (hbr : s.data.count ']' = 1) :
    extractJson s = .arr vs := by
  obtain ⟨inner, hcore, hin⟩ := hrep
  subst hcore
  have hlb : '[' ∉ ws1 := allWs_not_mem hw1 (by decide)
  have hrb1 : ']' ∉ ws1 := allWs_not_mem hw1 (by decide)
  have hrb2 : ']' ∉ ws2 := allWs_not_mem hw2 (by decide)
  have hinner : ']' ∉ inner := by
    have c1 : ws1.count ']' = 0 := List.count_eq_zero.mpr hrb1
    have c2 : ws2.count ']' = 0 := List.count_eq_zero.mpr hrb2
    rw [hs] at hbr
    simp [List.count_append, List.count_cons, c1, c2] at hbr
    exact List.count_eq_zero.mp (by omega)
  have hseg := bracketSeg_decomp hs hlb hinner
  have hfence := fencedGroup_none hbq
  have hp : parseJson ⟨'[' :: inner ++ [']']⟩ = some (.arr vs) :=
    parseJson_of_arrRep ⟨inner, rfl, hin⟩
  unfold extractJson
  rw [hfence]
  show extractTail s = Json.arr vs
  unfold extractTail
  rw [hseg]
  show (parseJson ⟨'[' :: inner ++ [']']⟩).getD (.arr []) = Json.arr vs
  rw [hp]
  rfl

/-- C7 witness: the empty record array `"[]"` satisfies all hypotheses and
`extractJson` returns the parsed empty array. -/
theorem C7_extract_bare_array_amended_witness :
    ("[]" : String).data = [] ++ ['[', ']'] ++ [] ∧
      ArrRep [] (['[', ']']) ∧
      backquote ∉ ("[]" : String).data ∧
      ("[]" : String).data.count ']' = 1 ∧
      extractJson ("[]") = .arr [] := by
  have ha : allWs ([] : List Char) := fun c hc => absurd hc (by simp)
  have hrep : ArrRep [] (['[', ']']) := ⟨[], rfl, Or.inl ⟨rfl, ha⟩⟩
  refine ⟨rfl, hrep, by decide, by decide, ?_⟩
  exact C7_extract_bare_array_amended ("[]") [] [] (['[', ']']) [] rfl ha ha hrep
    (by decide) (by decide)

end FinApp
